import Mathlib

/-!
Verification of the normalization / redaction / filtering / aggregation
pipeline of the survey-dashboard application (`app.py`).

The embedding is shallow:

* A cell of a raw spreadsheet column of `object` dtype is either the float
  NaN that `pd.read_excel` puts into blank cells (`PCell.nanF`), the
  `pd.NA` sentinel that the cleaning step introduces (`PCell.naS`), or a
  text value (`PCell.txt`).  `Series.astype(str)` stringifies missing
  values (`str(np.nan) = "nan"`, `str(pd.NA) = "<NA>"`), which is modelled
  by `astypeStr`.
* `Series.str.replace(pat, rep, regex=False)` with a one-character pattern
  and replacement is a character map, modelled by `replaceChar`.
* Python's `str.strip()` removes leading and trailing whitespace
  characters; `pyStrip` models it with the whitespace predicate
  `pyIsSpace` covering the ASCII whitespace characters and U+00A0.
* A pandas series is column-typed: `clean_string_series` returns numeric
  (non-`object`) series unchanged and cleans every cell of an `object`
  series.
* A data frame, for the loading step, is an ordered association list of
  column name to series.
-/

/-- A cell of an `object`-dtype pandas column: the float NaN produced by
`pd.read_excel` for blank cells, the `pd.NA` sentinel produced by the
cleaning step, or a text value. -/
inductive PCell where
  | nanF : PCell
  | naS : PCell
  | txt : String → PCell
deriving DecidableEq, Repr

/-- Whitespace for Python's `str.strip()`: ASCII whitespace plus the
non-breaking space U+00A0. -/
def pyIsSpace (c : Char) : Bool :=
  c = ' ' || c = '\t' || c = '\n' || c = '\r' || c = '\x0b' || c = '\x0c' || c = '\xa0'

/-- Remove trailing characters satisfying `pyIsSpace`. -/
def dropTrail (l : List Char) : List Char :=
  (l.reverse.dropWhile pyIsSpace).reverse

/-- Python `str.strip()`. -/
def pyStrip (s : String) : String :=
  ⟨dropTrail (s.data.dropWhile pyIsSpace)⟩

/-- `Series.str.replace(a, b, regex=False)` for a one-character pattern
`a` and one-character replacement `b`: replace every occurrence. -/
def replaceChar (a b : Char) (s : String) : String :=
  ⟨s.data.map (fun c => if c = a then b else c)⟩

/-- `Series.astype(str)` on a single cell: `str(np.nan) = "nan"`,
`str(pd.NA) = "<NA>"`, text is unchanged. -/
def astypeStr : PCell → String
  | .nanF => "nan"
  | .naS => "<NA>"
  | .txt s => s

/-- The string produced for one cell by the chain of
`clean_string_series` (app.py lines 57-62): `astype(str)`, replace
`"\n"` and `"\xa0"` by spaces, `str.strip`. -/
def cleanCellStr (c : PCell) : String :=
  pyStrip (replaceChar '\xa0' ' ' (replaceChar '\n' ' ' (astypeStr c)))

/-- One cell of the body of `clean_string_series` (app.py lines 57-64):
the cleaned string, with the exact strings `"nan"` and `""` replaced by
`pd.NA`. -/
def cleanCell (c : PCell) : PCell :=
  if cleanCellStr c = "nan" || cleanCellStr c = "" then .naS else .txt (cleanCellStr c)

/-- A pandas series as used by the loader: a numeric (non-`object`)
series is opaque to the cleaning step, an `object` series is a list of
cells. -/
inductive PSeries where
  | numeric : List Int → PSeries
  | obj : List PCell → PSeries
deriving DecidableEq, Repr

/-- `clean_string_series` (app.py lines 53-64): series whose dtype is not
`object` are returned unchanged, otherwise every cell is cleaned. -/
def clean_string_series : PSeries → PSeries
  | .numeric v => .numeric v
  | .obj v => .obj (v.map cleanCell)

/-- `RENAME_MAP` (app.py lines 14-27). -/
def RENAME_MAP : List (String × String) :=
  [("Start time", "Start Time"),
   ("Completion time", "Completion Time"),
   ("Email Address", "Secondary Email"),
   ("What is your Educational Background\n", "Educational Background"),
   ("What is your current church affiliation\xa0", "Church Affiliation"),
   ("How frequently do you attend church?\n", "Attendance Frequency"),
   ("How do you attend church", "Attendance Mode"),
   ("How much time do you spend per day on media (Social Media, Streaming Platforms, etc)",
    "Daily Media Time"),
   ("Which platforms do you use?", "Media Platforms"),
   ("My engagement with media has made my faith:", "Media Impact on Faith"),
   ("How regular are you with personal devotion (Bible Reading/Prayer)",
    "Personal Devotion Regularity"),
   ("In what way do you contribute to your church (select all that apply)",
    "Church Contribution")]

/-- `SENSITIVE_COLUMNS` (app.py lines 29-36). -/
def SENSITIVE_COLUMNS : List String :=
  ["Email", "Name", "First Name", "Last Name", "Secondary Email", "Phone Number"]

/-- `df.rename(columns=RENAME_MAP)` on one header: mapped headers are
replaced by their canonical name, unmapped headers pass through. -/
def renameCol (c : String) : String :=
  match RENAME_MAP.find? (fun p => p.1 = c) with
  | some p => p.2
  | none => c

/-- The normalization part of `load_data` (app.py lines 74-78): rename
headers, strip header whitespace, clean every column. -/
def load_data_norm (df : List (String × PSeries)) : List (String × PSeries) :=
  df.map (fun p => (pyStrip (renameCol p.1), clean_string_series p.2))

/-- `load_data` after the file read (app.py lines 74-84): normalization
followed by dropping every sensitive column that is present. -/
def load_data (df : List (String × PSeries)) : List (String × PSeries) :=
  (load_data_norm df).filter (fun p => !SENSITIVE_COLUMNS.contains p.1)

example : cleanCell (.txt "  a\nb  ") = .txt "a b" := by decide
example : cleanCell .nanF = .naS := by decide
example : cleanCell .naS = .txt "<NA>" := by decide
example : cleanCell (.txt " nan ") = .naS := by decide
example :
    load_data [("Email Address", .obj [.txt "x@y"]), ("Start time", .obj [.txt " t "])] =
      [("Start Time", .obj [.txt "t"])] := by decide

/-!
## String-cleaning lemmas

Facts about `pyStrip`, `replaceChar` and `cleanCell` needed for the
idempotence and invariant claims about normalization.
-/

/-- The head surviving `dropWhile` fails the predicate. -/
theorem head?_dropWhile_false {α : Type} (P : α → Bool) :
    ∀ (l : List α) (x : α), (l.dropWhile P).head? = some x → P x = false := by
  intro l
  induction l with
  | nil => intro x h; cases h
  | cons a t ih =>
      intro x h
      rw [List.dropWhile_cons] at h
      by_cases ha : P a = true
      · rw [if_pos ha] at h
        exact ih x h
      · rw [if_neg ha, List.head?_cons] at h
        cases h
        exact Bool.eq_false_iff.mpr ha

/-- `dropWhile` is the identity when the head already fails the
predicate. -/
theorem dropWhile_eq_self_of_head {α : Type} (P : α → Bool) (l : List α)
    (h : ∀ x, l.head? = some x → P x = false) : l.dropWhile P = l := by
  cases l with
  | nil => rfl
  | cons a t =>
      have ha := h a rfl
      rw [List.dropWhile_cons, if_neg (by rw [ha]; exact Bool.false_ne_true)]

/-- `dropWhile` is idempotent. -/
theorem dropWhile_idem {α : Type} (P : α → Bool) (l : List α) :
    (l.dropWhile P).dropWhile P = l.dropWhile P :=
  dropWhile_eq_self_of_head P _ (head?_dropWhile_false P l)

/-- `dropTrail l` is a prefix of `l`. -/
theorem dropTrail_decomp (l : List Char) :
    dropTrail l ++ (l.reverse.takeWhile pyIsSpace).reverse = l := by
  unfold dropTrail
  rw [← List.reverse_append, List.takeWhile_append_dropWhile, List.reverse_reverse]

/-- The reversal of a stripped string drops the trailing whitespace
first. -/
theorem reverse_pyStrip (s : String) :
    (pyStrip s).data.reverse = (s.data.dropWhile pyIsSpace).reverse.dropWhile pyIsSpace := by
  show (dropTrail (s.data.dropWhile pyIsSpace)).reverse = _
  unfold dropTrail
  rw [List.reverse_reverse]

/-- Python `str.strip()` is idempotent. -/
theorem pyStrip_idem (s : String) : pyStrip (pyStrip s) = pyStrip s := by
  have hA : (pyStrip s).data.dropWhile pyIsSpace = (pyStrip s).data := by
    apply dropWhile_eq_self_of_head
    intro x hx
    have hx' : (dropTrail (s.data.dropWhile pyIsSpace)).head? = some x := hx
    have hd : (s.data.dropWhile pyIsSpace).head? = some x := by
      rw [← dropTrail_decomp (s.data.dropWhile pyIsSpace)]
      cases hcase : dropTrail (s.data.dropWhile pyIsSpace) with
      | nil => rw [hcase] at hx'; cases hx'
      | cons y ys =>
          rw [hcase, List.head?_cons] at hx'
          cases hx'
          rw [List.cons_append, List.head?_cons]
    exact head?_dropWhile_false pyIsSpace s.data x hd
  have hB : dropTrail (pyStrip s).data = (pyStrip s).data := by
    unfold dropTrail
    rw [reverse_pyStrip, dropWhile_idem, ← reverse_pyStrip, List.reverse_reverse]
  show (⟨dropTrail ((pyStrip s).data.dropWhile pyIsSpace)⟩ : String) = pyStrip s
  rw [hA, hB]

/-- Characters of a stripped string come from the original. -/
theorem mem_pyStrip (s : String) (x : Char) (hx : x ∈ (pyStrip s).data) : x ∈ s.data := by
  have h1 : x ∈ s.data.dropWhile pyIsSpace := by
    rw [← dropTrail_decomp (s.data.dropWhile pyIsSpace)]
    exact List.mem_append_left _ hx
  rw [← List.takeWhile_append_dropWhile (p := pyIsSpace) (l := s.data)]
  exact List.mem_append_right _ h1

/-- A character of `replaceChar a b s` is `b` or a character of `s`. -/
theorem mem_replaceChar (a b : Char) (s : String) (x : Char)
    (hx : x ∈ (replaceChar a b s).data) : x = b ∨ x ∈ s.data := by
  obtain ⟨c, hc, hfc⟩ := List.mem_map.mp hx
  by_cases hca : c = a
  · rw [if_pos hca] at hfc
    exact Or.inl hfc.symm
  · rw [if_neg hca] at hfc
    right
    rw [← hfc]
    exact hc

/-- `replaceChar a b` removes every occurrence of `a` (when `a ≠ b`). -/
theorem not_mem_replaceChar (a b : Char) (s : String) (hab : a ≠ b) :
    a ∉ (replaceChar a b s).data := by
  intro hmem
  obtain ⟨c, hc, hfc⟩ := List.mem_map.mp hmem
  by_cases hca : c = a
  · rw [if_pos hca] at hfc
    exact hab hfc.symm
  · rw [if_neg hca] at hfc
    exact hca hfc

/-- `replaceChar a b` is the identity when `a` does not occur. -/
theorem replaceChar_eq_self (a b : Char) (s : String) (h : a ∉ s.data) :
    replaceChar a b s = s := by
  show (⟨s.data.map (fun c => if c = a then b else c)⟩ : String) = s
  have hmap : s.data.map (fun c => if c = a then b else c) = s.data := by
    conv_rhs => rw [← List.map_id s.data]
    apply List.map_congr_left
    intro c hc
    rw [if_neg (fun hca => h (by rw [← hca]; exact hc))]
    rfl
  rw [hmap]

/-- `cleanCell` never returns the float NaN. -/
theorem cleanCell_ne_nanF (c : PCell) : cleanCell c ≠ PCell.nanF := by
  unfold cleanCell
  by_cases hcond : (cleanCellStr c = "nan" || cleanCellStr c = "") = true
  · rw [if_pos hcond]
    intro h
    cases h
  · rw [if_neg hcond]
    intro h
    cases h

/-- Cleaning a cell that cleaning already turned into text is the
identity: the cleaned string has no line break or non-breaking space
left, is already stripped, and is neither `"nan"` nor empty. -/
theorem cleanCell_idem_of_txt (c : PCell) (s : String) (h : cleanCell c = PCell.txt s) :
    cleanCell (PCell.txt s) = PCell.txt s := by
  unfold cleanCell at h
  by_cases hcond : (cleanCellStr c = "nan" || cleanCellStr c = "") = true
  · rw [if_pos hcond] at h
    cases h
  · rw [if_neg hcond] at h
    cases h
    have hn : '\n' ∉ (cleanCellStr c).data := by
      intro hmem
      rcases mem_replaceChar '\xa0' ' ' (replaceChar '\n' ' ' (astypeStr c)) '\n'
          (mem_pyStrip _ _ hmem) with h2 | h2
      · exact absurd h2 (by decide)
      · exact not_mem_replaceChar '\n' ' ' (astypeStr c) (by decide) h2
    have ha : '\xa0' ∉ (cleanCellStr c).data := by
      intro hmem
      exact not_mem_replaceChar '\xa0' ' ' _ (by decide) (mem_pyStrip _ _ hmem)
    have hstr : cleanCellStr (PCell.txt (cleanCellStr c)) = cleanCellStr c := by
      show pyStrip (replaceChar '\xa0' ' ' (replaceChar '\n' ' ' (cleanCellStr c))) =
        cleanCellStr c
      rw [replaceChar_eq_self '\n' ' ' _ hn, replaceChar_eq_self '\xa0' ' ' _ ha]
      exact pyStrip_idem _
    unfold cleanCell
    rw [hstr, if_neg hcond]

/-- Every cleaned cell is the missing sentinel or a stripped non-empty
text value different from the literal `"nan"`. -/
theorem cleanCell_invariant (c : PCell) :
    cleanCell c = PCell.naS ∨
      ∃ s, cleanCell c = PCell.txt s ∧ s ≠ "" ∧ s ≠ "nan" ∧ pyStrip s = s := by
  unfold cleanCell
  by_cases hcond : (cleanCellStr c = "nan" || cleanCellStr c = "") = true
  · rw [if_pos hcond]
    exact Or.inl rfl
  · rw [if_neg hcond]
    right
    refine ⟨cleanCellStr c, rfl, ?_, ?_, ?_⟩
    · intro h
      apply hcond
      rw [h]
      decide
    · intro h
      apply hcond
      rw [h]
      decide
    · exact pyStrip_idem _

/-!
## Idempotence and invariant of normalization
-/

/-- A series carries no `pd.NA` sentinel. -/
def seriesNoNA : PSeries → Bool
  | .numeric _ => true
  | .obj v => !v.contains PCell.naS

/-- A `contains` check returning `false` refutes membership. -/
theorem not_mem_of_contains_eq_false {α : Type} [BEq α] [LawfulBEq α] :
    ∀ (l : List α) (a : α), l.contains a = false → a ∉ l := by
  intro l
  induction l with
  | nil =>
      intro a _ hm
      cases hm
  | cons b t ih =>
      intro a h hm
      rw [List.contains_cons] at h
      obtain ⟨h1, h2⟩ := Bool.or_eq_false_iff.mp h
      cases hm with
      | head =>
          rw [beq_self_eq_true] at h1
          cases h1
      | tail _ hmt => exact ih a h2 hmt

/-- Re-cleaning a cleaned series is the identity as long as the cleaned
series has no missing sentinel (re-cleaning stringifies `pd.NA` into
the literal `"<NA>"`). -/
theorem clean_series_idem (sr : PSeries) (h : seriesNoNA (clean_string_series sr) = true) :
    clean_string_series (clean_string_series sr) = clean_string_series sr := by
  cases sr with
  | numeric w => rfl
  | obj w =>
      have hno : PCell.naS ∉ w.map cleanCell := by
        have h0 : (!(w.map cleanCell).contains PCell.naS) = true := h
        have h1 : (w.map cleanCell).contains PCell.naS = false := by
          cases hb : (w.map cleanCell).contains PCell.naS
          · rfl
          · rw [hb] at h0
            cases h0
        exact not_mem_of_contains_eq_false _ _ h1
      show PSeries.obj ((w.map cleanCell).map cleanCell) = PSeries.obj (w.map cleanCell)
      congr 1
      conv_rhs => rw [← List.map_id (w.map cleanCell)]
      apply List.map_congr_left
      intro y hy
      obtain ⟨c0, _, hcc⟩ := List.mem_map.mp hy
      show cleanCell y = y
      cases y with
      | nanF => exact absurd hcc (cleanCell_ne_nanF c0)
      | naS => exact absurd hy hno
      | txt s => exact cleanCell_idem_of_txt c0 s hcc

/-- A header that is not a raw header of the rename table passes
through the rename untouched. -/
theorem renameCol_eq_self (c : String)
    (h : (RENAME_MAP.map (fun q => q.1)).contains c = false) : renameCol c = c := by
  unfold renameCol
  cases hf : RENAME_MAP.find? (fun p => p.1 = c) with
  | none => rfl
  | some p =>
      exfalso
      have hp := List.find?_some hf
      have hpc : p.1 = c := of_decide_eq_true hp
      have hpm : p ∈ RENAME_MAP := List.mem_of_find?_eq_some hf
      have hcm : c ∈ RENAME_MAP.map (fun q => q.1) := by
        rw [← hpc]
        exact List.mem_map_of_mem _ hpm
      have hcontains : (RENAME_MAP.map (fun q => q.1)).contains c = true := by
        simpa using hcm
      rw [h] at hcontains
      cases hcontains

/-- C2, counterexample.  A missing cell is `pd.NA` after one
normalization; a second normalization stringifies it to the literal
`"<NA>"` (`astype(str)`), which survives the `"nan"`/`""` replacement,
so `normalize` is not idempotent on a dataset with a missing cell. -/
theorem C2_counterexample :
    load_data_norm (load_data_norm [("A", PSeries.obj [PCell.nanF])]) ≠
      load_data_norm [("A", PSeries.obj [PCell.nanF])] := by decide

/-- C2, amended.  Normalization is idempotent on every raw dataset
whose normalized form has no missing cell and no header that is again a
raw header of the rename table: re-normalizing changes nothing there.
(On missing cells re-normalization produces the literal `"<NA>"`, and a
header that strips to a raw rename key is renamed again.) -/
theorem C2_normalize_idem_no_missing (x : List (String × PSeries))
    (h1 : ∀ pr ∈ load_data_norm x, seriesNoNA pr.2 = true)
    (h2 : ∀ pr ∈ load_data_norm x, (RENAME_MAP.map (fun q => q.1)).contains pr.1 = false) :
    load_data_norm (load_data_norm x) = load_data_norm x := by
  unfold load_data_norm
  rw [List.map_map]
  apply List.map_congr_left
  intro q hq
  have hmem : (pyStrip (renameCol q.1), clean_string_series q.2) ∈ load_data_norm x := by
    unfold load_data_norm
    exact List.mem_map_of_mem _ hq
  have hh1 := h1 _ hmem
  have hh2 := h2 _ hmem
  show (pyStrip (renameCol (pyStrip (renameCol q.1))),
      clean_string_series (clean_string_series q.2)) =
    (pyStrip (renameCol q.1), clean_string_series q.2)
  rw [renameCol_eq_self _ hh2, pyStrip_idem, clean_series_idem _ hh1]

/-- C2, witness. -/
theorem C2_witness :
    (∀ pr ∈ load_data_norm [("Start time", PSeries.obj [PCell.txt " a "])],
      seriesNoNA pr.2 = true) ∧
    (∀ pr ∈ load_data_norm [("Start time", PSeries.obj [PCell.txt " a "])],
      (RENAME_MAP.map (fun q => q.1)).contains pr.1 = false) ∧
    load_data_norm (load_data_norm [("Start time", PSeries.obj [PCell.txt " a "])]) =
      load_data_norm [("Start time", PSeries.obj [PCell.txt " a "])] :=
  ⟨by decide, by decide, C2_normalize_idem_no_missing _ (by decide) (by decide)⟩

/-- C6.  Every column of the loaded dataset is outside the sensitive
set (present or not, a sensitive column is simply dropped, never an
error), and every cell of an `object` column is the missing sentinel or
a stripped, non-empty text value different from the literal `"nan"`. -/
theorem C6_canonical_invariant (df : List (String × PSeries)) (pr : String × PSeries)
    (hpr : pr ∈ load_data df) :
    pr.1 ∉ SENSITIVE_COLUMNS ∧
    ∀ v, pr.2 = PSeries.obj v → ∀ c ∈ v,
      c = PCell.naS ∨ ∃ s, c = PCell.txt s ∧ s ≠ "" ∧ s ≠ "nan" ∧ pyStrip s = s := by
  constructor
  · have hkeep := List.of_mem_filter hpr
    simpa using hkeep
  · intro v hv c hc
    have hpr' : pr ∈ load_data_norm df := List.mem_of_mem_filter hpr
    obtain ⟨q, hq, hq2⟩ := List.mem_map.mp hpr'
    have h2 : PSeries.obj v = clean_string_series q.2 := by
      rw [← hv, ← hq2]
    cases hqs : q.2 with
    | numeric w =>
        rw [hqs] at h2
        simp [clean_string_series] at h2
    | obj w =>
        rw [hqs] at h2
        simp only [clean_string_series] at h2
        cases h2
        obtain ⟨c0, _, hcc⟩ := List.mem_map.mp hc
        rw [← hcc]
        exact cleanCell_invariant c0

/-- C6, witness. -/
theorem C6_witness :
    ("A", PSeries.obj [PCell.txt "x", PCell.naS]).1 ∉ SENSITIVE_COLUMNS ∧
    ∀ v, ("A", PSeries.obj [PCell.txt "x", PCell.naS]).2 = PSeries.obj v → ∀ c ∈ v,
      c = PCell.naS ∨ ∃ s, c = PCell.txt s ∧ s ≠ "" ∧ s ≠ "nan" ∧ pyStrip s = s :=
  C6_canonical_invariant
    [("Email", PSeries.obj []), ("A", PSeries.obj [PCell.txt " x ", PCell.nanF])]
    ("A", PSeries.obj [PCell.txt "x", PCell.naS]) (by decide)

/-!
## The filter engine

`apply_filters` (app.py lines 87-100) works row-wise on the canonical
dataset: for the filter columns all relevant cells are text or missing,
so a cell is modelled as `Option String` (`none` = missing).  A data
frame is a header list together with rows aligned to it.  `selections`
and `options_map` are Python dicts iterated in insertion order, modelled
as association lists.  `pandas` raises `KeyError` when a selection names
a column the frame does not have; the model returns `none` there, and
`some` of the resulting frame otherwise.
-/

/-- A data frame for the filtering stage: ordered headers and rows of
cells aligned with the headers (`none` is a missing value). -/
structure DataFrame where
  columns : List String
  rows : List (List (Option String))
deriving DecidableEq, Repr

/-- Index of a column in the headers, `none` if absent. -/
def colIdx (df : DataFrame) (c : String) : Option Nat :=
  df.columns.indexOf? c

/-- The cell of row `r` at column index `i`. -/
def getCell (r : List (Option String)) (i : Nat) : Option String :=
  r.getD i none

/-- `Series.isin(selected)` on one cell: a missing value is never in the
selected list. -/
def isin (c : Option String) (selected : List String) : Bool :=
  match c with
  | none => false
  | some v => selected.contains v

/-- Python `set(a) == set(b)` for two string lists. -/
def sameSet (a b : List String) : Bool :=
  a.all (fun v => b.contains v) && b.all (fun v => a.contains v)

/-- One mask application `filtered[filtered[column].isin(selected)]`:
keep the rows whose cell at column index `i` is in `selected`. -/
def filterStep (rows : List (List (Option String))) (i : Nat) (selected : List String) :
    List (List (Option String)) :=
  rows.filter (fun r => isin (getCell r i) selected)

/-- The loop of `apply_filters` (app.py lines 93-99) over the selection
entries, threading the surviving rows.  An empty selected list is
skipped (`if not selected: continue`); a selected list equal as a set to
`options_map.get(column, [])` is skipped; otherwise the rows are masked
by membership, and a column absent from the frame is a `KeyError`
(`none`). -/
def applyFiltersAux (df : DataFrame) (options_map : List (String × List String)) :
    List (String × List String) → List (List (Option String)) →
      Option (List (List (Option String)))
  | [], rows => some rows
  | (c, selected) :: rest, rows =>
      if selected = [] then
        applyFiltersAux df options_map rest rows
      else
        let available := match options_map.find? (fun p => p.1 = c) with
          | some p => p.2
          | none => []
        if sameSet selected available then
          applyFiltersAux df options_map rest rows
        else
          match colIdx df c with
          | none => none
          | some i => applyFiltersAux df options_map rest (filterStep rows i selected)

/-- `apply_filters(data, selections, options_map)` (app.py lines
87-100). -/
def apply_filters (df : DataFrame) (selections options_map : List (String × List String)) :
    Option DataFrame :=
  (applyFiltersAux df options_map selections df.rows).map (fun rs => ⟨df.columns, rs⟩)

/-- The distinct non-missing values observed for a column, in order of
first appearance (the set behind `data[column].dropna().unique()`;
`main` sorts this list for display, which does not change the set). -/
def uniqueFirstAux (seen : List String) : List String → List String
  | [] => []
  | a :: t =>
      if seen.contains a then uniqueFirstAux seen t
      else a :: uniqueFirstAux (a :: seen) t

/-- Distinct values of a list in order of first appearance. -/
def uniqueFirst (l : List String) : List String :=
  uniqueFirstAux [] l

/-- The observed domain of a column: its distinct non-missing values. -/
def observedDomain (df : DataFrame) (c : String) : List String :=
  match colIdx df c with
  | none => []
  | some i => uniqueFirst (df.rows.filterMap (fun r => getCell r i))

/-- The options map `main` builds: each listed column mapped to its
observed domain. -/
def domainMap (df : DataFrame) (cols : List String) : List (String × List String) :=
  cols.map (fun c => (c, observedDomain df c))

example :
    apply_filters ⟨["A"], [[some "x"], [some "y"], [none]]⟩ [("A", ["x"])]
      [("A", ["x", "y"])] = some ⟨["A"], [[some "x"]]⟩ := by decide
example :
    apply_filters ⟨["A"], [[some "x"], [some "y"], [none]]⟩ [("A", ["x", "y"])]
      [("A", ["x", "y"])] = some ⟨["A"], [[some "x"], [some "y"], [none]]⟩ := by decide
example :
    apply_filters ⟨["A"], [[some "x"], [some "y"], [none]]⟩ [("A", [])]
      [("A", ["x", "y"])] = some ⟨["A"], [[some "x"], [some "y"], [none]]⟩ := by decide
example :
    observedDomain ⟨["A"], [[some "x"], [some "y"], [none], [some "x"]]⟩ "A" = ["x", "y"] := by
  decide

/-!
## The categorical aggregator and the summary reporter

`single_select_chart` / `summarize_category` build the frequency table
`series.dropna().replace("", pd.NA).dropna().value_counts()`;
`multivalue_chart` / `summarize_multivalue` first explode the series with
`.str.split(";").explode().str.strip().replace("", pd.NA).dropna()`.

`value_counts` counts the distinct values and returns them sorted by
count in descending order; equal counts keep the order of first
appearance (a stable descending sort of the first-appearance frequency
table).  It is modelled by a stable insertion sort over the
first-appearance table `preCounts`.
-/

/-- The qualifying values of a series:
`series.dropna().replace("", pd.NA).dropna()` keeps exactly the
non-missing values that are not the empty string. -/
def qualifying (s : List (Option String)) : List String :=
  (s.filterMap id).filter (fun v => v ≠ "")

/-- The frequency table before sorting: each distinct value of `l` in
order of first appearance, with its number of occurrences. -/
def preCounts (l : List String) : List (String × Nat) :=
  (uniqueFirst l).map (fun v => (v, l.count v))

/-- Insert an entry into a count-descending list, after all entries with
a count greater than or equal to its own (stability). -/
def insertDesc (x : String × Nat) : List (String × Nat) → List (String × Nat)
  | [] => [x]
  | b :: t => if b.2 < x.2 then x :: b :: t else b :: insertDesc x t

/-- Stable sort by count, descending: insert the entries left to right,
each after the entries already placed with an equal or larger count. -/
def sortCountsDesc (l : List (String × Nat)) : List (String × Nat) :=
  l.foldl (fun acc x => insertDesc x acc) []

/-- `Series.value_counts()` on the values `l`: occurrences of each
distinct value, sorted by count descending, ties in order of first
appearance. -/
def value_counts (l : List String) : List (String × Nat) :=
  sortCountsDesc (preCounts l)

/-- The single-valued aggregate of `single_select_chart` /
`summarize_category` (app.py lines 104-110 and 191-196). -/
def aggregate_single (s : List (Option String)) : List (String × Nat) :=
  value_counts (qualifying s)

/-- Python `str.split(";")` at the character level: cut at every `';'`,
never dropping a piece (`"".split(";") = [""]`). -/
def splitSemisAux : List Char → List Char → List (List Char)
  | [], cur => [cur.reverse]
  | c :: t, cur =>
      if c = ';' then cur.reverse :: splitSemisAux t []
      else splitSemisAux t (c :: cur)

/-- Python `str.split(";")`. -/
def splitSemicolon (s : String) : List String :=
  (splitSemisAux s.data []).map (fun l => ⟨l⟩)

/-- The exploded token pool of a multi-valued series (app.py lines
163-170 and 205-212): drop missing cells, split each cell on `';'`,
flatten, strip each token, drop empty tokens. -/
def explodeTokens (s : List (Option String)) : List String :=
  (((s.filterMap id).flatMap splitSemicolon).map pyStrip).filter (fun v => v ≠ "")

/-- The multi-valued aggregate of `multivalue_chart` /
`summarize_multivalue` (app.py lines 162-176 and 204-218). -/
def aggregate_multi (s : List (Option String)) : List (String × Nat) :=
  value_counts (explodeTokens s)

/-- `summarize_category` (app.py lines 190-201): `"N/A"` on an empty
aggregate, otherwise the first (highest-count) entry formatted as
`"label (count)"`. -/
def summarize_category (s : List (Option String)) : String :=
  match aggregate_single s with
  | [] => "N/A"
  | (lbl, n) :: _ => lbl ++ " (" ++ toString n ++ ")"

/-- `summarize_multivalue` (app.py lines 204-218). -/
def summarize_multivalue (s : List (Option String)) : String :=
  match aggregate_multi s with
  | [] => "N/A"
  | (lbl, n) :: _ => lbl ++ " (" ++ toString n ++ ")"

example : splitSemicolon "Instagram; YouTube" = ["Instagram", " YouTube"] := by decide
example : splitSemicolon "" = [""] := by decide
example :
    explodeTokens [some "Instagram; YouTube", some "YouTube", none, some "Instagram",
      some "TikTok; YouTube"] =
      ["Instagram", "YouTube", "YouTube", "Instagram", "TikTok", "YouTube"] := by decide
example : value_counts ["a", "b", "b"] = [("b", 2), ("a", 1)] := by decide
example : value_counts ["a", "b"] = [("a", 1), ("b", 1)] := by decide
example : summarize_category [some "x", some "x", some "y"] = "x (2)" := by decide
example : summarize_category [none, some ""] = "N/A" := by decide

/-!
## Claims about the filter engine: empty selections
-/

/-- Entries of the selection whose selected list is empty are skipped by
the loop (`if not selected: continue`), so removing them does not change
the surviving rows. -/
theorem applyFiltersAux_filter_nonempty (df : DataFrame)
    (options_map : List (String × List String)) :
    ∀ (sel : List (String × List String)) (rows : List (List (Option String))),
      applyFiltersAux df options_map (sel.filter (fun pr => !pr.2.isEmpty)) rows =
        applyFiltersAux df options_map sel rows := by
  intro sel
  induction sel with
  | nil => intro rows; rfl
  | cons pr rest ih =>
      intro rows
      obtain ⟨c, s⟩ := pr
      by_cases hs : s = []
      · subst hs
        simpa [applyFiltersAux, List.filter_cons] using ih rows
      · have hne : (!(s.isEmpty)) = true := by
          simp [List.isEmpty_iff, hs]
        rw [List.filter_cons]
        simp only [hne, if_pos]
        simp only [applyFiltersAux]
        rw [if_neg hs, if_neg hs]
        apply if_congr Iff.rfl (ih rows)
        cases colIdx df c with
        | none => rfl
        | some i => exact ih _

/-- C1, counterexample.  The claim says an empty selected set for a
column forces an empty result; but on the one-row frame with column
`"A"`, the selection mapping `"A"` to the empty set returns the full
one-row frame. -/
theorem C1_counterexample :
    apply_filters ⟨["A"], [[some "x"]]⟩ [("A", [])] [("A", ["x"])] =
      some ⟨["A"], [[some "x"]]⟩ ∧
    (⟨["A"], [[some "x"]]⟩ : DataFrame).rows.length ≠ 0 := by decide

/-- C1, amended.  A column whose selected set is empty is skipped by
`apply_filters` (`if not selected: continue`): dropping every
empty-selection entry from the selection leaves the result unchanged,
so an empty selected set never excludes any row. -/
theorem C1_empty_selection_skipped (df : DataFrame)
    (selections options_map : List (String × List String)) :
    apply_filters df (selections.filter (fun pr => !pr.2.isEmpty)) options_map =
      apply_filters df selections options_map := by
  unfold apply_filters
  rw [applyFiltersAux_filter_nonempty]

/-!
## Claims about the filter engine: no-op, membership, frame
-/

/-- Looking a listed column up in the options map `main` builds returns
its observed domain. -/
theorem find?_domainMap (df : DataFrame) (cols : List String) (c : String) (hc : c ∈ cols) :
    (domainMap df cols).find? (fun p => p.1 = c) = some (c, observedDomain df c) := by
  induction cols with
  | nil => cases hc
  | cons a t ih =>
      by_cases hac : a = c
      · subst hac
        simp [domainMap, List.find?_cons]
      · have hct : c ∈ t := by
          cases hc with
          | head => exact absurd rfl hac
          | tail _ h => exact h
        simpa [domainMap, List.find?_cons, hac] using ih hct

/-- If every selection entry is either empty or equal as a set to the
options-map entry for its column, every entry is skipped and the rows
survive unchanged. -/
theorem applyFiltersAux_skip_all (df : DataFrame) (om : List (String × List String)) :
    ∀ (sel : List (String × List String)) (rows : List (List (Option String))),
      (∀ pr ∈ sel, pr.2 = [] ∨
        sameSet pr.2 (match om.find? (fun p => p.1 = pr.1) with
          | some p => p.2
          | none => []) = true) →
      applyFiltersAux df om sel rows = some rows := by
  intro sel
  induction sel with
  | nil => intro rows _; rfl
  | cons pr rest ih =>
      intro rows H
      obtain ⟨c, s⟩ := pr
      simp only [applyFiltersAux]
      by_cases hs : s = []
      · rw [if_pos hs]
        exact ih rows (fun q hq => H q (List.mem_cons_of_mem _ hq))
      · rw [if_neg hs]
        have hset : sameSet s (match om.find? (fun p => p.1 = c) with
            | some p => p.2
            | none => []) = true := by
          rcases H (c, s) (List.mem_cons_self _ _) with h | h
          · exact absurd h hs
          · exact h
        rw [if_pos hset]
        exact ih rows (fun q hq => H q (List.mem_cons_of_mem _ hq))

/-- C3.  If every column of the selection selects exactly the full set
of distinct non-missing values observed for it, `apply_filters` (with
the options map `main` builds from the observed domains) returns the
dataset unchanged; in particular rows that are missing on a selected
column survive. -/
theorem C3_full_selection_noop (df : DataFrame) (selections : List (String × List String))
    (H : ∀ pr ∈ selections, sameSet pr.2 (observedDomain df pr.1) = true) :
    apply_filters df selections (domainMap df (selections.map (fun pr => pr.1))) = some df := by
  unfold apply_filters
  rw [applyFiltersAux_skip_all df _ selections df.rows ?_]
  · rfl
  · intro pr hpr
    right
    rw [find?_domainMap df _ pr.1 (List.mem_map_of_mem _ hpr)]
    exact H pr hpr

/-- C3, witness: a full selection on `"Age Range"` keeps both the
matching row and the row missing that value. -/
theorem C3_witness :
    (∀ pr ∈ [("Age Range", ["a"])],
      sameSet pr.2 (observedDomain ⟨["Age Range"], [[some "a"], [none]]⟩ pr.1) = true) ∧
    apply_filters ⟨["Age Range"], [[some "a"], [none]]⟩ [("Age Range", ["a"])]
        (domainMap ⟨["Age Range"], [[some "a"], [none]]⟩
          ([("Age Range", ["a"])].map (fun pr => pr.1))) =
      some ⟨["Age Range"], [[some "a"], [none]]⟩ :=
  ⟨by decide, C3_full_selection_noop ⟨["Age Range"], [[some "a"], [none]]⟩
    [("Age Range", ["a"])] (by decide)⟩

/-- C4.  A selection on a single column whose selected set is neither
empty nor the full observed domain keeps exactly the rows whose value
at that column is a member of the selected set; a missing value is
never a member, so rows missing that value are excluded. -/
theorem C4_proper_selection_membership (df : DataFrame) (c : String) (s : List String)
    (i : Nat) (hs : s ≠ []) (hfull : sameSet s (observedDomain df c) = false)
    (hi : colIdx df c = some i) :
    apply_filters df [(c, s)] (domainMap df [c]) =
      some ⟨df.columns, df.rows.filter (fun r =>
        match getCell r i with
        | some v => s.contains v
        | none => false)⟩ := by
  unfold apply_filters applyFiltersAux
  rw [if_neg hs]
  have hfind : (domainMap df [c]).find? (fun p => p.1 = c) =
      some (c, observedDomain df c) :=
    find?_domainMap df [c] c (List.mem_singleton.mpr rfl)
  rw [hfind]
  have hnot : ¬ (sameSet s (observedDomain df c) = true) := by
    rw [hfull]
    exact Bool.false_ne_true
  rw [if_neg hnot, hi]
  have hstep : filterStep df.rows i s = df.rows.filter (fun r =>
      match getCell r i with
      | some v => s.contains v
      | none => false) := by
    apply List.filter_congr
    intro r _
    cases getCell r i <;> rfl
  show Option.map _ (applyFiltersAux df (domainMap df [c]) [] (filterStep df.rows i s)) = _
  rw [hstep]
  rfl

/-- The five `Age Range` responses of the C4 example. -/
def ageRangeFrame : DataFrame :=
  ⟨["Age Range"], [[some "18-24"], [some "25-34"], [some "18-24"], [none], [some "25-34"]]⟩

/-- C4, witness: selecting only `"18-24"` keeps exactly the two
`"18-24"` rows, dropping the missing row. -/
theorem C4_witness :
    (["18-24"] : List String) ≠ [] ∧
    sameSet ["18-24"] (observedDomain ageRangeFrame "Age Range") = false ∧
    colIdx ageRangeFrame "Age Range" = some 0 ∧
    apply_filters ageRangeFrame [("Age Range", ["18-24"])] (domainMap ageRangeFrame ["Age Range"]) =
      some ⟨["Age Range"], [[some "18-24"], [some "18-24"]]⟩ :=
  ⟨by decide, by decide, by decide,
    (C4_proper_selection_membership ageRangeFrame "Age Range" ["18-24"] 0 (by decide)
      (by decide) (by decide)).trans (by decide)⟩

/-- The rows surviving the filter loop are a sublist of the rows it
started from. -/
theorem applyFiltersAux_sublist (df : DataFrame) (om : List (String × List String)) :
    ∀ (sel : List (String × List String)) (rows out : List (List (Option String))),
      applyFiltersAux df om sel rows = some out → out.Sublist rows := by
  intro sel
  induction sel with
  | nil =>
      intro rows out h
      cases h
      exact List.Sublist.refl _
  | cons pr rest ih =>
      intro rows out h
      obtain ⟨c, s⟩ := pr
      simp only [applyFiltersAux] at h
      by_cases hs : s = []
      · rw [if_pos hs] at h
        exact ih rows out h
      · rw [if_neg hs] at h
        split at h
        · exact ih rows out h
        · cases hcol : colIdx df c with
          | none => rw [hcol] at h; cases h
          | some i =>
              rw [hcol] at h
              exact (ih _ out h).trans (List.filter_sublist rows)

/-- C10.  `apply_filters` is a pure function of its inputs (the code
copies the frame and only masks rows, never mutating `data`); whenever
it returns a frame, that frame has exactly the input's column list and
its rows are a sublist of the input's rows — original order and cell
values preserved. -/
theorem C10_frame_conditions (df : DataFrame) (selections options_map : List (String × List String))
    (out : DataFrame) (h : apply_filters df selections options_map = some out) :
    out.columns = df.columns ∧ out.rows.Sublist df.rows := by
  unfold apply_filters at h
  cases haux : applyFiltersAux df options_map selections df.rows with
  | none => rw [haux] at h; cases h
  | some rs =>
      rw [haux] at h
      cases h
      exact ⟨rfl, applyFiltersAux_sublist df options_map selections df.rows rs haux⟩

/-- C10, witness. -/
theorem C10_witness :
    (⟨["A"], [[some "x"]]⟩ : DataFrame).columns = (⟨["A"], [[some "x"], [some "y"]]⟩ : DataFrame).columns ∧
    (⟨["A"], [[some "x"]]⟩ : DataFrame).rows.Sublist (⟨["A"], [[some "x"], [some "y"]]⟩ : DataFrame).rows :=
  C10_frame_conditions ⟨["A"], [[some "x"], [some "y"]]⟩ [("A", ["x"])] [("A", ["x", "y"])]
    ⟨["A"], [[some "x"]]⟩ (by decide)

/-!
## The multi-valued aggregation example
-/

/-!
## Counting lemmas for the aggregator
-/

/-- Values returned by `uniqueFirstAux` were not already seen. -/
theorem contains_eq_false_of_mem_uniqueFirstAux :
    ∀ (seen l : List String) (x : String), x ∈ uniqueFirstAux seen l →
      seen.contains x = false := by
  intro seen l
  induction l generalizing seen with
  | nil => intro x hx; cases hx
  | cons a t ih =>
      intro x hx
      unfold uniqueFirstAux at hx
      by_cases ha : seen.contains a = true
      · rw [if_pos ha] at hx
        exact ih seen x hx
      · rw [if_neg ha] at hx
        cases hx with
        | head => exact Bool.eq_false_iff.mpr (fun h => ha h)
        | tail _ hx =>
            have hx' := ih (a :: seen) x hx
            have : (x == a || seen.contains x) = false := by
              simpa [List.contains_cons] using hx'
            exact (Bool.or_eq_false_iff.mp this).2

/-- Splitting the length of `t.filter (· ∉ seen)` at a fresh value `a`:
the occurrences of `a` plus the values fresh for `a :: seen`. -/
theorem length_filter_contains_split (a : String) (seen : List String)
    (ha : seen.contains a = false) :
    ∀ t : List String,
      (t.filter (fun x => !seen.contains x)).length =
        t.count a + (t.filter (fun x => !(a :: seen).contains x)).length := by
  intro t
  induction t with
  | nil => rfl
  | cons b t' ih =>
      by_cases hba : b = a
      · subst hba
        have h1 : (!seen.contains b) = true := by rw [ha]; rfl
        have h2 : ¬ ((!(b :: seen).contains b) = true) := by
          rw [List.contains_cons, beq_self_eq_true, Bool.true_or]
          decide
        rw [List.filter_cons, List.filter_cons, if_pos h1, if_neg h2,
          List.count_cons_self, List.length_cons]
        omega
      · have hbeq : (b == a) = false := by simp [hba]
        have hcons : (a :: seen).contains b = seen.contains b := by
          rw [List.contains_cons, hbeq, Bool.false_or]
        have hcnt : (b :: t').count a = t'.count a :=
          List.count_cons_of_ne (fun h => hba h.symm) _
        rw [List.filter_cons, List.filter_cons, hcons, hcnt]
        by_cases hsb : seen.contains b = true
        · have hc1 : ¬ ((!seen.contains b) = true) := by rw [hsb]; decide
          rw [if_neg hc1, if_neg hc1]
          exact ih
        · have hsb' : seen.contains b = false := Bool.eq_false_iff.mpr hsb
          have hc1 : (!seen.contains b) = true := by rw [hsb']; rfl
          rw [if_pos hc1, if_pos hc1, List.length_cons, List.length_cons]
          omega

/-- The counts of the values `uniqueFirstAux seen l` collects add up to
the number of elements of `l` not already seen. -/
theorem sum_counts_uniqueFirstAux :
    ∀ (l seen : List String),
      ((uniqueFirstAux seen l).map (fun v => l.count v)).sum =
        (l.filter (fun x => !seen.contains x)).length := by
  intro l
  induction l with
  | nil => intro seen; rfl
  | cons a t ih =>
      intro seen
      unfold uniqueFirstAux
      by_cases ha : seen.contains a = true
      · rw [if_pos ha]
        have hmap : (uniqueFirstAux seen t).map (fun v => (a :: t).count v) =
            (uniqueFirstAux seen t).map (fun v => t.count v) := by
          apply List.map_congr_left
          intro v hv
          have hvs := contains_eq_false_of_mem_uniqueFirstAux seen t v hv
          have hva : v ≠ a := by
            intro hcontra
            rw [hcontra, ha] at hvs
            cases hvs
          exact List.count_cons_of_ne hva t
        rw [hmap, ih seen, List.filter_cons]
        have hc : ¬ ((!seen.contains a) = true) := by rw [ha]; decide
        rw [if_neg hc]
      · have ha' : seen.contains a = false := Bool.eq_false_iff.mpr ha
        rw [if_neg ha]
        have hmap : (uniqueFirstAux (a :: seen) t).map (fun v => (a :: t).count v) =
            (uniqueFirstAux (a :: seen) t).map (fun v => t.count v) := by
          apply List.map_congr_left
          intro v hv
          have hvs := contains_eq_false_of_mem_uniqueFirstAux (a :: seen) t v hv
          have hva : v ≠ a := by
            intro hcontra
            rw [List.contains_cons, hcontra, beq_self_eq_true, Bool.true_or] at hvs
            cases hvs
          exact List.count_cons_of_ne hva t
        rw [List.map_cons, List.sum_cons, hmap, ih (a :: seen), List.filter_cons]
        have hc : (!seen.contains a) = true := by rw [ha']; rfl
        rw [if_pos hc, List.count_cons_self, List.length_cons,
          length_filter_contains_split a seen ha' t]
        omega

/-- The counts in the pre-sort frequency table add up to the length of
the counted list. -/
theorem sum_preCounts (l : List String) :
    ((preCounts l).map (fun p => p.2)).sum = l.length := by
  unfold preCounts uniqueFirst
  rw [List.map_map]
  have : ((fun p : String × Nat => p.2) ∘ fun v => (v, l.count v)) = fun v => l.count v := rfl
  rw [this, sum_counts_uniqueFirstAux l []]
  congr 1
  apply List.filter_eq_self.mpr
  intro a _
  rfl

/-- Inserting into the descending list is a permutation of consing. -/
theorem insertDesc_perm (x : String × Nat) :
    ∀ acc : List (String × Nat), (insertDesc x acc).Perm (x :: acc) := by
  intro acc
  induction acc with
  | nil => exact List.Perm.refl _
  | cons b t ih =>
      unfold insertDesc
      by_cases hb : b.2 < x.2
      · rw [if_pos hb]
      · rw [if_neg hb]
        exact (List.Perm.cons b ih).trans (List.Perm.swap x b t)

/-- The stable descending sort permutes its input. -/
theorem foldl_insertDesc_perm :
    ∀ (l acc : List (String × Nat)),
      (l.foldl (fun a x => insertDesc x a) acc).Perm (acc ++ l) := by
  intro l
  induction l with
  | nil => intro acc; simp
  | cons x t ih =>
      intro acc
      rw [List.foldl_cons]
      refine (ih (insertDesc x acc)).trans ?_
      refine (List.Perm.append_right t (insertDesc_perm x acc)).trans ?_
      exact List.perm_middle.symm

/-- `sortCountsDesc` permutes its input. -/
theorem sortCountsDesc_perm (l : List (String × Nat)) : (sortCountsDesc l).Perm l :=
  foldl_insertDesc_perm l []

/-- C7.  On a series satisfying the canonical-dataset invariant (no
cell is the empty string — `load_data` guarantees this), the counts of
the single-valued aggregate add up to the number of non-missing values
of the series. -/
theorem C7_single_aggregate_conservation (s : List (Option String))
    (h : ∀ c ∈ s, c ≠ some "") :
    ((aggregate_single s).map (fun p => p.2)).sum = (s.filterMap id).length := by
  have hq : qualifying s = s.filterMap id := by
    unfold qualifying
    apply List.filter_eq_self.mpr
    intro v hv
    obtain ⟨a, ha, hav⟩ := List.mem_filterMap.mp hv
    have : a ≠ some "" := h a ha
    simp only [id] at hav
    subst hav
    simpa using this
  unfold aggregate_single value_counts
  rw [((sortCountsDesc_perm (preCounts (qualifying s))).map (fun p => p.2)).sum_eq,
    sum_preCounts, hq]

/-- C7, witness. -/
theorem C7_witness :
    (∀ c ∈ [some "a", none, some "a", some "b"], c ≠ some "") ∧
    ((aggregate_single [some "a", none, some "a", some "b"]).map (fun p => p.2)).sum =
      ([some "a", none, some "a", some "b"].filterMap id).length :=
  ⟨by decide, C7_single_aggregate_conservation [some "a", none, some "a", some "b"] (by decide)⟩

/-- Members of `insertDesc x t` are `x` or members of `t`. -/
theorem mem_insertDesc (x y : String × Nat) :
    ∀ t : List (String × Nat), y ∈ insertDesc x t → y = x ∨ y ∈ t := by
  intro t
  induction t with
  | nil =>
      intro hy
      cases hy with
      | head => exact Or.inl rfl
      | tail _ h => cases h
  | cons b t' ih =>
      unfold insertDesc
      by_cases hb : b.2 < x.2
      · rw [if_pos hb]
        intro hy
        cases hy with
        | head => exact Or.inl rfl
        | tail _ h => exact Or.inr h
      · rw [if_neg hb]
        intro hy
        cases hy with
        | head => exact Or.inr (List.mem_cons_self _ _)
        | tail _ h =>
            cases ih h with
            | inl h' => exact Or.inl h'
            | inr h' => exact Or.inr (List.mem_cons_of_mem _ h')

/-- `insertDesc` preserves the count-descending order. -/
theorem insertDesc_sorted (x : String × Nat) :
    ∀ t : List (String × Nat), t.Pairwise (fun a b => b.2 ≤ a.2) →
      (insertDesc x t).Pairwise (fun a b => b.2 ≤ a.2) := by
  intro t
  induction t with
  | nil => intro _; exact List.pairwise_singleton _ _
  | cons b t' ih =>
      intro h
      rw [List.pairwise_cons] at h
      obtain ⟨hb, ht'⟩ := h
      unfold insertDesc
      by_cases hlt : b.2 < x.2
      · rw [if_pos hlt]
        refine List.Pairwise.cons ?_ (List.Pairwise.cons hb ht')
        intro y hy
        cases hy with
        | head => exact Nat.le_of_lt hlt
        | tail _ h' => exact (hb y h').trans (Nat.le_of_lt hlt)
      · rw [if_neg hlt]
        refine List.Pairwise.cons ?_ (ih ht')
        intro y hy
        cases mem_insertDesc x y t' hy with
        | inl h' => rw [h']; exact Nat.le_of_not_lt hlt
        | inr h' => exact hb y h'

/-- Stability of one insertion: in a count-descending list the new
entry lands after every entry with the same count, so the entries of a
fixed count `n` keep their order, with `x` appended when its count is
`n`. -/
theorem insertDesc_filter (x : String × Nat) (n : Nat) :
    ∀ t : List (String × Nat), t.Pairwise (fun a b => b.2 ≤ a.2) →
      (insertDesc x t).filter (fun p => p.2 == n) =
        t.filter (fun p => p.2 == n) ++ (if x.2 == n then [x] else []) := by
  intro t
  induction t with
  | nil =>
      intro _
      show [x].filter (fun p => p.2 == n) = [] ++ (if x.2 == n then [x] else [])
      rw [List.nil_append, List.filter_cons]
      by_cases hx : (x.2 == n) = true
      · rw [if_pos hx, if_pos hx]; rfl
      · rw [if_neg hx, if_neg hx]; rfl
  | cons b t' ih =>
      intro h
      rw [List.pairwise_cons] at h
      obtain ⟨hb, ht'⟩ := h
      unfold insertDesc
      by_cases hlt : b.2 < x.2
      · rw [if_pos hlt]
        by_cases hx : (x.2 == n) = true
        · have hn : x.2 = n := eq_of_beq hx
          have hnil : (b :: t').filter (fun p => p.2 == n) = [] := by
            apply List.filter_eq_nil_iff.mpr
            intro y hy
            have hyb : y.2 ≤ b.2 := by
              cases hy with
              | head => exact Nat.le_refl _
              | tail _ h' => exact hb y h'
            have : y.2 < n := Nat.lt_of_le_of_lt hyb (hn ▸ hlt)
            simp [Nat.ne_of_lt this]
          rw [List.filter_cons, if_pos hx, hnil, List.nil_append, if_pos hx]
        · rw [List.filter_cons, if_neg hx, if_neg hx, List.append_nil]
      · rw [if_neg hlt]
        rw [List.filter_cons, List.filter_cons]
        by_cases hbn : (b.2 == n) = true
        · rw [if_pos hbn, if_pos hbn, ih ht', List.cons_append]
        · rw [if_neg hbn, if_neg hbn, ih ht']

/-- Stability of the whole sort, with the sorted prefix generalized. -/
theorem foldl_insertDesc_filter (n : Nat) :
    ∀ l acc : List (String × Nat), acc.Pairwise (fun a b => b.2 ≤ a.2) →
      (l.foldl (fun a x => insertDesc x a) acc).filter (fun p => p.2 == n) =
        acc.filter (fun p => p.2 == n) ++ l.filter (fun p => p.2 == n) := by
  intro l
  induction l with
  | nil => intro acc _; rw [List.foldl_nil, List.filter_nil, List.append_nil]
  | cons x t ih =>
      intro acc hacc
      rw [List.foldl_cons, ih (insertDesc x acc) (insertDesc_sorted x acc hacc),
        insertDesc_filter x n acc hacc, List.filter_cons, List.append_assoc]
      by_cases hx : (x.2 == n) = true
      · rw [if_pos hx, if_pos hx, List.singleton_append]
      · rw [if_neg hx, if_neg hx, List.nil_append]

/-- The sort underlying `value_counts` is count-descending. -/
theorem sortCountsDesc_sorted (l : List (String × Nat)) :
    (sortCountsDesc l).Pairwise (fun a b => b.2 ≤ a.2) := by
  unfold sortCountsDesc
  have : ∀ (t acc : List (String × Nat)), acc.Pairwise (fun a b => b.2 ≤ a.2) →
      (t.foldl (fun a x => insertDesc x a) acc).Pairwise (fun a b => b.2 ≤ a.2) := by
    intro t
    induction t with
    | nil => intro acc h; exact h
    | cons x t' ih =>
        intro acc h
        rw [List.foldl_cons]
        exact ih _ (insertDesc_sorted x acc h)
  exact this l [] List.Pairwise.nil

/-- The sort underlying `value_counts` is stable: the entries of any
fixed count keep the order they had before sorting. -/
theorem sortCountsDesc_filter (l : List (String × Nat)) (n : Nat) :
    (sortCountsDesc l).filter (fun p => p.2 == n) = l.filter (fun p => p.2 == n) := by
  unfold sortCountsDesc
  rw [foldl_insertDesc_filter n l [] List.Pairwise.nil, List.filter_nil, List.nil_append]

/-- C8.  The single-valued aggregate table is sorted by count in
descending order, and for every count value the entries carrying it
appear exactly in the order of `preCounts` — the order in which their
category value is first seen in the dataset. -/
theorem C8_sorted_ties_first_seen (s : List (Option String)) :
    (aggregate_single s).Pairwise (fun a b => b.2 ≤ a.2) ∧
    ∀ n : Nat, (aggregate_single s).filter (fun p => p.2 == n) =
      (preCounts (qualifying s)).filter (fun p => p.2 == n) :=
  ⟨sortCountsDesc_sorted (preCounts (qualifying s)),
    fun n => sortCountsDesc_filter (preCounts (qualifying s)) n⟩

/-- `value_counts` is empty exactly on the empty value list. -/
theorem value_counts_nil_iff (l : List String) : value_counts l = [] ↔ l = [] := by
  constructor
  · intro h
    cases l with
    | nil => rfl
    | cons a t =>
        exfalso
        have hperm := sortCountsDesc_perm (preCounts (a :: t))
        have hlen : (preCounts (a :: t)).length = 0 := by
          rw [← hperm.length_eq]
          show (value_counts (a :: t)).length = 0
          rw [h]
          rfl
        have hcons : preCounts (a :: t) = (a, (a :: t).count a) :: ((uniqueFirstAux [a] t).map
            (fun v => (v, (a :: t).count v))) := rfl
        rw [hcons] at hlen
        cases hlen
  · intro h
    rw [h]
    rfl

/-- The formatted top entry `"label (count)"` ends in `')'`, so it is
never the `"N/A"` sentinel: the sentinel is distinguishable from every
real category result. -/
theorem format_ne_sentinel (lbl : String) (n : Nat) :
    lbl ++ " (" ++ toString n ++ ")" ≠ "N/A" := by
  intro h
  have hd : (lbl ++ " (" ++ toString n ++ ")").data.getLast? =
      ("N/A" : String).data.getLast? := congrArg (fun s : String => s.data.getLast?) h
  have h1 : (lbl ++ " (" ++ toString n ++ ")").data =
      (lbl ++ " (" ++ toString n).data ++ [')'] := rfl
  rw [h1, List.getLast?_concat] at hd
  have h2 : ("N/A" : String).data.getLast? = some 'A' := rfl
  rw [h2] at hd
  have h3 : (')' : Char) = 'A' := Option.some.inj hd
  exact absurd h3 (by decide)

/-- C9.  The summary operations return the `"N/A"` sentinel exactly
when there is no qualifying value (no non-missing, non-empty value for
the single-valued mode; no token for the multi-valued mode), and
otherwise report the first aggregate entry, which carries the maximal
count; the formatted result always differs from the sentinel. -/
theorem C9_sentinel_iff_no_data (s : List (Option String)) :
    (summarize_category s = "N/A" ↔ qualifying s = []) ∧
    (summarize_multivalue s = "N/A" ↔ explodeTokens s = []) ∧
    (∀ lbl n rest, aggregate_single s = (lbl, n) :: rest →
      summarize_category s = lbl ++ " (" ++ toString n ++ ")" ∧
      ∀ p ∈ aggregate_single s, p.2 ≤ n) ∧
    (∀ lbl n rest, aggregate_multi s = (lbl, n) :: rest →
      summarize_multivalue s = lbl ++ " (" ++ toString n ++ ")" ∧
      ∀ p ∈ aggregate_multi s, p.2 ≤ n) := by
  have hsingle : ∀ (l : List String),
      ((match value_counts l with
        | [] => "N/A"
        | (lbl, n) :: _ => lbl ++ " (" ++ toString n ++ ")") = "N/A" ↔ l = []) := by
    intro l
    cases hvc : value_counts l with
    | nil =>
        constructor
        · intro _
          exact (value_counts_nil_iff l).mp hvc
        · intro _
          rfl
    | cons p rest =>
        obtain ⟨lbl, n⟩ := p
        constructor
        · intro hcontra
          exact absurd hcontra (format_ne_sentinel lbl n)
        · intro hl
          rw [hl] at hvc
          cases hvc
  have htop : ∀ (l : List String) (lbl : String) (n : Nat) (rest : List (String × Nat)),
      value_counts l = (lbl, n) :: rest →
        ((match value_counts l with
          | [] => "N/A"
          | (lbl, n) :: _ => lbl ++ " (" ++ toString n ++ ")") =
            lbl ++ " (" ++ toString n ++ ")") ∧
        ∀ p ∈ value_counts l, p.2 ≤ n := by
    intro l lbl n rest hvc
    constructor
    · rw [hvc]
    · intro p hp
      have hsorted : (value_counts l).Pairwise (fun a b => b.2 ≤ a.2) :=
        sortCountsDesc_sorted (preCounts l)
      rw [hvc] at hsorted hp
      rw [List.pairwise_cons] at hsorted
      cases hp with
      | head => exact Nat.le_refl _
      | tail _ hp' => exact hsorted.1 p hp'
  exact ⟨hsingle (qualifying s), hsingle (explodeTokens s),
    fun lbl n rest h => htop (qualifying s) lbl n rest h,
    fun lbl n rest h => htop (explodeTokens s) lbl n rest h⟩

/-- C9, witness. -/
theorem C9_witness :
    (summarize_category [some "a", none] = "N/A" ↔ qualifying [some "a", none] = []) ∧
    (summarize_multivalue [some "a", none] = "N/A" ↔ explodeTokens [some "a", none] = []) ∧
    (∀ lbl n rest, aggregate_single [some "a", none] = (lbl, n) :: rest →
      summarize_category [some "a", none] = lbl ++ " (" ++ toString n ++ ")" ∧
      ∀ p ∈ aggregate_single [some "a", none], p.2 ≤ n) ∧
    (∀ lbl n rest, aggregate_multi [some "a", none] = (lbl, n) :: rest →
      summarize_multivalue [some "a", none] = lbl ++ " (" ++ toString n ++ ")" ∧
      ∀ p ∈ aggregate_multi [some "a", none], p.2 ≤ n) :=
  C9_sentinel_iff_no_data [some "a", none]

/-- C5.  On the five-row `Media Platforms` column, the multi-valued
aggregation (split on `';'`, trim, drop empties, pool, count) gives
YouTube = 3, Instagram = 2, TikTok = 1, and `summarize_multivalue`
reports the top entry `"YouTube (3)"`. -/
theorem C5_multivalue_example :
    aggregate_multi [some "Instagram; YouTube", some "YouTube", none, some "Instagram",
        some "TikTok; YouTube"] =
      [("YouTube", 3), ("Instagram", 2), ("TikTok", 1)] ∧
    summarize_multivalue [some "Instagram; YouTube", some "YouTube", none, some "Instagram",
        some "TikTok; YouTube"] = "YouTube (3)" := by decide
